import Mathlib

/-!
Verification of the editable-text engine of `src/buffer.rs` (the Ki editor core).

The buffer's rope (`ropey::Rope`) is modelled as the list of its Unicode scalar
values (`Text := List Char`); ropey's documented line/char/byte conversions are
embedded as executable functions on that list.  Code of the repository that is
not among the sources (`edit.rs`, `char_index_range.rs`, `syntax_highlight.rs`,
the `similar` diff collaborator) is modelled from the specification; every such
definition carries a doc comment starting with "Modelled from the spec".
-/

namespace KiEditor

/-- Text content: a `ropey::Rope` modelled as the list of its chars. -/
abbrev Text := List Char

/-- Number of newline characters in a text. -/
def countNl (t : Text) : Nat := t.countP (· = '\n')

/-- True iff the last character of the text is a newline
(`rope.get_char(len_chars().saturating_sub(1)) == Some('\n')` in `Buffer::len_lines`). -/
def endsNlB (t : Text) : Bool := t.getLast? == some '\n'

/-- Splits text into ropey-style lines: each line keeps its terminating newline, and
a text that is empty or ends with a newline has a final empty line (ropey counts it).
The accumulator holds the chars of the current unfinished line. -/
def linesAuxR : Text → Text → List Text
  | [], acc => [acc]
  | c :: cs, acc =>
    if c = '\n' then (acc ++ ['\n']) :: linesAuxR cs [] else linesAuxR cs (acc ++ [c])

/-- Splits text into similar-style lines: like `linesAuxR` but with no phantom empty
final line (the `similar::TextDiff::from_lines` tokenisation). -/
def linesAuxS : Text → Text → List Text
  | [], acc => if acc.isEmpty then [] else [acc]
  | c :: cs, acc =>
    if c = '\n' then (acc ++ ['\n']) :: linesAuxS cs [] else linesAuxS cs (acc ++ [c])

/-- The lines of a rope, ropey-style (`rope.lines()`): a trailing newline yields a final
empty line, and the empty rope has one empty line. -/
def ropeLines (t : Text) : List Text := linesAuxR t []

/-- The lines of a text as the line diff tokenises them: a trailing newline yields no
extra empty line, and the empty text has no lines. -/
def simLines (t : Text) : List Text := linesAuxS t []

/-- Whether `linesAuxR` produces one more (empty) line than `linesAuxS`. -/
def hasPhantom (t acc : Text) : Bool :=
  match t with
  | [] => acc.isEmpty
  | _ => endsNlB t

/-- The value of `rope.len_lines()` (one more than the number of newlines). -/
def ropeLenLines (t : Text) : Nat := (ropeLines t).length

/-- Char index of the start of ropey line `i` (valid for `i ≤ ropeLenLines`,
one-past-the-end allowed, per `Rope::try_line_to_char`). -/
def lineStart (t : Text) (i : Nat) : Nat := (((ropeLines t).take i).flatten).length

/-- Model of `Rope::try_line_to_char`. -/
def tryLineToChar (t : Text) (i : Nat) : Option Nat :=
  if i ≤ ropeLenLines t then some (lineStart t i) else none

/-- Model of `Rope::get_line` as used by `Buffer::get_line_by_line_index`. -/
def getLineByLineIndexT (t : Text) (i : Nat) : Option Text := (ropeLines t)[i]?

/-- Model of `Rope::try_char_to_line`: the line containing char `i` is the number of
newlines strictly before it; `i = len_chars` maps to the last line. -/
def tryCharToLine (t : Text) (i : Nat) : Option Nat :=
  if i ≤ t.length then some (countNl (t.take i)) else none

/-- UTF-8 byte length of a char sequence. -/
def utf8Len (s : Text) : Nat := (s.map Char.utf8Size).sum

/-- Model of `Rope::try_char_to_byte`. -/
def tryCharToByte (t : Text) (i : Nat) : Option Nat :=
  if i ≤ t.length then some (utf8Len (t.take i)) else none

/-- Model of `Rope::try_line_to_byte`. -/
def tryLineToByte (t : Text) (i : Nat) : Option Nat :=
  if i ≤ ropeLenLines t then some (utf8Len (((ropeLines t).take i).flatten)) else none

/-- Model of `Rope::try_remove(s..e)`: fails iff `s > e` or `e` is out of bounds. -/
def tryRemove (t : Text) (s e : Nat) : Option Text :=
  if s ≤ e ∧ e ≤ t.length then some (t.take s ++ t.drop e) else none

/-- Model of `Rope::try_insert(i, s)`: fails iff `i` is out of bounds. -/
def tryInsert (t : Text) (i : Nat) (s : Text) : Option Text :=
  if i ≤ t.length then some (t.take i ++ s ++ t.drop i) else none

/-- Model of `rope.slice(s..e)` (total; the Rust call panics when out of bounds,
and every use in the sources is proved in bounds). -/
def sliceT (t : Text) (s e : Nat) : Text := (t.drop s).take (e - s)

/-- Model of `Buffer::len_lines` (src lines 356-367): `rope.len_lines()` minus one
when the last character is a newline. -/
def lenLinesT (t : Text) : Nat :=
  ropeLenLines t - (if endsNlB t then 1 else 0)

/-! ### Positions and coordinate conversions (`Buffer` coordinate converter) -/

/-- The engine's own position type (`position.rs`): zero-based line and column, the
column counting chars since line start with the newline an ordinary char of its line. -/
structure Position where
  line : Nat
  column : Nat
  deriving DecidableEq

/-- The external protocol position (`ki_protocol_types::Position`, u32 fields). -/
structure VscodePosition where
  line : Nat
  character : Nat
  deriving DecidableEq

/-- Truncation to u32, modelling the `as u32` casts. -/
def u32 (n : Nat) : Nat := n % 4294967296

/-- Model of `Buffer::position_to_char` (src lines 414-423): line and column are
clamped to valid bounds, then converted through `try_line_to_char`. -/
def textPositionToChar (t : Text) (p : Position) : Option Nat :=
  let line := min p.line (lenLinesT t)
  let column := min p.column (((getLineByLineIndexT t line).map List.length).getD 0)
  (tryLineToChar t line).map (fun s => s + column)

/-- Model of `Buffer::char_to_position` (src lines 382-392). -/
def textCharToPosition (t : Text) (i : Nat) : Option Position :=
  (tryCharToLine t i).map (fun line =>
    ⟨line, ((tryLineToChar t line).map (fun s => i - s)).getD 0⟩)

/-- Model of `Buffer::char_to_vscode_position` (src lines 397-412): the body computes
the line index and the column from the line start exactly as `char_to_position` does,
and returns them as u32 protocol coordinates. -/
def textCharToVscodePosition (t : Text) (i : Nat) : Option VscodePosition :=
  (tryCharToLine t i).map (fun line =>
    ⟨u32 line, u32 (((tryLineToChar t line).map (fun s => i - s)).getD 0)⟩)

/-- Chars occupied by the first `j` diff lines of `t`. -/
def charsUpTo (t : Text) (j : Nat) : Nat := (((simLines t).take j).flatten).length

/-! ### Edits, transactions, satellites, and the buffer -/

/-- Half-open char range (`char_index_range.rs`); the field named `end` in Rust is
`stop` here because `end` is reserved in Lean. -/
structure CharIndexRange where
  start : Nat
  stop : Nat
  deriving DecidableEq

/-- An edit (`edit.rs`): replace the text occupying `range` by `new`; `old` is the
text occupying `range` at apply time. -/
structure Edit where
  range : CharIndexRange
  old : Text
  new : Text
  deriving DecidableEq

/-- Modelled from the spec: `Edit::end()` lives in `edit.rs`, which is not among the
sources; spec section 4.3 step 3 applies an edit by removing `[range.start, range.end)`
and inserting `new` at `range.start`. -/
def Edit.endIdx (e : Edit) : Nat := e.range.stop

/-- Net length delta of an edit: new length minus old length (spec section 4.3). -/
def Edit.delta (e : Edit) : Int := (e.new.length : Int) - (e.old.length : Int)

/-- An action group (`edit.rs`): an ordered sequence of actions; the only action
variant is an edit, so the group is modelled as its list of edits. -/
structure ActionGroup where
  actions : List Edit
  deriving DecidableEq

/-- An edit transaction (`edit.rs`): an ordered sequence of action groups. -/
structure EditTransaction where
  actionGroups : List ActionGroup
  deriving DecidableEq

/-- Saturating shift of a char index by a signed offset, modelling
`CharIndex::apply_offset` (negative results clamp to zero). -/
def shiftNat (x : Nat) (d : Int) : Nat := ((x : Int) + d).toNat

/-- The edits of a transaction in declared order with their stored
(pre-transaction snapshot) ranges, as `EditTransaction::unnormalized_edits`. -/
def EditTransaction.unnormalizedEdits (t : EditTransaction) : List Edit :=
  (t.actionGroups.map ActionGroup.actions).flatten

/-- Modelled from the spec: the normalization performed by `edit.rs` when a
transaction is built from action groups is not among the sources.  Per spec
section 3 the stored ranges are pre-computed against the pre-transaction snapshot
and the edits are applied in order, so each edit's range must be offset by the
cumulative net length delta of the edits before it; offsets saturate at zero. -/
def offsetEdits : Int → List Edit → List Edit
  | _, [] => []
  | d, e :: es =>
    { e with range := ⟨shiftNat e.range.start d, shiftNat e.range.stop d⟩ } ::
      offsetEdits (d + e.delta) es

/-- Stable insertion into a list sorted by range start (normalization sorts the
edits by the start of their ranges). -/
def insertSorted (e : Edit) : List Edit → List Edit
  | [] => [e]
  | f :: fs => if e.range.start ≤ f.range.start then e :: f :: fs else f :: insertSorted e fs

/-- Stable sort of edits by range start. -/
def sortByStart (es : List Edit) : List Edit := es.foldr insertSorted []

/-- Modelled from the spec: `EditTransaction::edits` lives in `edit.rs`; it yields
the transaction's edits normalized for sequential application (sorted by range
start, each range offset by the cumulative delta of the preceding edits). -/
def EditTransaction.edits (t : EditTransaction) : List Edit :=
  offsetEdits 0 (sortByStart t.unnormalizedEdits)

/-- Modelled from the spec: `EditTransaction::inverse` lives in `edit.rs`; spec
section 4.3 step 1: same ranges semantics with `old`/`new` swapped, so each
normalized edit inverts to an edit at its applied position covering the chars of
its `new` text. -/
def EditTransaction.inverse (t : EditTransaction) : EditTransaction :=
  ⟨t.edits.map (fun e =>
    ⟨[⟨⟨e.range.start, e.range.start + e.new.length⟩, e.new, e.old⟩]⟩)⟩

/-- An externally-addressed diff edit (`ki_protocol_types::DiffEdit`): a protocol
position range plus the replacement text. -/
structure DiffEdit where
  start : VscodePosition
  stop : VscodePosition
  newText : Text
  deriving DecidableEq

/-- Fallible map over a list, modelling `collect::<anyhow::Result<Vec<_>>>`: the
whole computation fails at the first failing element. -/
def traverseOption {A B : Type} (f : A → Option B) : List A → Option (List B)
  | [] => some []
  | x :: xs => (f x).bind (fun y => (traverseOption f xs).map (fun ys => y :: ys))

/-- Modelled from the spec: `Edit::to_vscode_diff_edit` lives in `edit.rs`; spec
section 6 emits position-range plus replacement text, the positions converted with
the protocol conversion of the buffer (fallible, aborting the apply on failure). -/
def toVscodeDiffEdit (t : Text) (e : Edit) : Option DiffEdit := do
  let ps ← textCharToVscodePosition t e.range.start
  let pf ← textCharToVscodePosition t e.range.stop
  pure ⟨ps, pf, e.new⟩

/-- Modelled from the spec: `CharIndexRange::apply_edit` lives in
`char_index_range.rs`, which is not among the sources.  Spec section 4.3 step 4: a
range entirely before the edit is untouched; a range wholly consumed by the
deletion is dropped; a range overlapping or after the edited region is shifted by
the edit's net length delta (saturating at zero). -/
def CharIndexRange.applyEdit (r : CharIndexRange) (e : Edit) : Option CharIndexRange :=
  if r.stop ≤ e.range.start then some r
  else if e.range.start ≤ r.start ∧ r.stop ≤ e.range.stop then none
  else some ⟨shiftNat r.start e.delta, shiftNat r.stop e.delta⟩

/-- A syntax-highlight span (`syntax_highlight.rs`): a byte range plus a style key
(the style key is opaque here, modelled as a number). -/
structure HighlightedSpan where
  byteStart : Nat
  byteStop : Nat
  styleKey : Nat
  deriving DecidableEq

/-- Modelled from the spec: `HighlightedSpans::apply_edit_mut` lives in
`syntax_highlight.rs`; spec section 4.3 step 5 shifts the spans inside the affected
byte window by the byte delta. -/
def spansApplyEdit (spans : List HighlightedSpan) (affectedStart affectedStop : Nat)
    (delta : Int) : List HighlightedSpan :=
  spans.map (fun sp =>
    if affectedStart ≤ sp.byteStart ∧ sp.byteStart < affectedStop then
      ⟨shiftNat sp.byteStart delta, shiftNat sp.byteStop delta, sp.styleKey⟩
    else sp)

/-- A diagnostic (`lsp/diagnostic.rs`): only its char range matters to the claims,
the message and severity are omitted. -/
structure Diagnostic where
  range : CharIndexRange
  deriving DecidableEq

/-- A quickfix list item (`quickfix_list.rs`): its location's position range; the
path and info payload are omitted. -/
structure QuickfixListItem where
  rangeStart : Position
  rangeStop : Position
  deriving DecidableEq

/-- The buffer's owner (src lines 33-37). -/
inductive BufferOwner where
  | user
  | system
  deriving DecidableEq

/-- Modelled from the spec: selection sets live in `selection.rs`, which is not
among the sources, and no claim concerns their contents, so they are modelled as
an opaque unit value. -/
abbrev SelectionSet := Unit

/-- Snapshot of selection set and marks (src lines 1554-1558). -/
structure BufferState where
  selectionSet : SelectionSet
  marks : List CharIndexRange
  deriving DecidableEq

/-- An edit-history entry (src lines 1569-1582). -/
structure EditHistory where
  editTransaction : EditTransaction
  oldState : BufferState
  newState : BufferState
  unnormalizedEdits : List DiffEdit
  invertedUnnormalizedEdits : List DiffEdit
  deriving DecidableEq

/-- Inverse of a history entry (src lines 1583-1593). -/
def EditHistory.inverse (h : EditHistory) : EditHistory :=
  ⟨h.editTransaction.inverse, h.newState, h.oldState,
    h.invertedUnnormalizedEdits, h.unnormalizedEdits⟩

/-- The buffer (src lines 39-57).  Omitted fields: `tree`, `treesitter_language`,
`language` and `path` (the parser and filesystem collaborators are outside this
model), `decorations` (never touched by the claimed operations), and
`selection_set_history` (selection contents are opaque here).  The batch id
(`SyntaxHighlightRequestBatchId`) is a monotonically incrementing counter per the
spec, modelled as a natural number. -/
structure Buffer where
  text : Text
  highlightedSpans : List HighlightedSpan
  marks : List CharIndexRange
  diagnostics : List Diagnostic
  quickfixItems : List QuickfixListItem
  dirty : Bool
  owner : BufferOwner
  undoStack : List EditHistory
  redoStack : List EditHistory
  batchId : Nat
  deriving DecidableEq

/-- Model of `Buffer::new` (src lines 68-101): fresh satellites, not dirty,
system-owned, empty history, batch id zero. -/
def Buffer.new (text : Text) : Buffer :=
  ⟨text, [], [], [], [], false, .system, [], [], 0⟩

/-- Model of `Buffer::content`. -/
def Buffer.content (b : Buffer) : Text := b.text

/-- Model of `Buffer::len_chars`. -/
def Buffer.lenChars (b : Buffer) : Nat := b.text.length

/-- Model of `Buffer::len_lines` (src lines 356-367). -/
def Buffer.lenLines (b : Buffer) : Nat := lenLinesT b.text

/-- Model of `Buffer::char_to_line`. -/
def Buffer.charToLine (b : Buffer) (i : Nat) : Option Nat := tryCharToLine b.text i

/-- Model of `Buffer::line_to_char`. -/
def Buffer.lineToChar (b : Buffer) (i : Nat) : Option Nat := tryLineToChar b.text i

/-- Model of `Buffer::char_to_byte`. -/
def Buffer.charToByte (b : Buffer) (i : Nat) : Option Nat := tryCharToByte b.text i

/-- Model of `Buffer::char_to_position` (src lines 382-392). -/
def Buffer.charToPosition (b : Buffer) (i : Nat) : Option Position :=
  textCharToPosition b.text i

/-- Model of `Buffer::char_to_vscode_position` (src lines 397-412). -/
def Buffer.charToVscodePosition (b : Buffer) (i : Nat) : Option VscodePosition :=
  textCharToVscodePosition b.text i

/-- Model of `Buffer::position_to_char` (src lines 414-423). -/
def Buffer.positionToChar (b : Buffer) (p : Position) : Option Nat :=
  textPositionToChar b.text p

/-- Model of `Buffer::get_line_by_line_index`. -/
def Buffer.getLineByLineIndex (b : Buffer) (i : Nat) : Option Text :=
  getLineByLineIndexT b.text i

/-- Model of `Buffer::position_range_to_char_index_range` (src lines 858-863). -/
def textPositionRangeToCharIndexRange (t : Text) (p q : Position) :
    Option CharIndexRange := do
  let a ← textPositionToChar t p
  let c ← textPositionToChar t q
  pure ⟨a, c⟩

/-- Model of `Buffer::char_index_range_to_position_range` (src lines 865-870). -/
def textCharIndexRangeToPositionRange (t : Text) (r : CharIndexRange) :
    Option (Position × Position) := do
  let p ← textCharToPosition t r.start
  let q ← textCharToPosition t r.stop
  pure (p, q)

/-- Model of `Buffer::char_index_range_to_byte_range` (src lines 1017-1022). -/
def textCharIndexRangeToByteRange (t : Text) (r : CharIndexRange) :
    Option (Nat × Nat) := do
  let a ← tryCharToByte t r.start
  let c ← tryCharToByte t r.stop
  pure (a, c)

/-- Model of `Buffer::update_highlighted_spans` (src lines 295-306): a result is
stored only when its batch id equals the buffer's current batch id. -/
def Buffer.updateHighlightedSpans (b : Buffer) (batchId : Nat)
    (spans : List HighlightedSpan) : Buffer :=
  if batchId = b.batchId then { b with highlightedSpans := spans } else b

/-- Model of `Buffer::save_marks` (src lines 145-156): the new marks are the
symmetric difference (as sets) of the old and the given ranges. -/
def Buffer.saveMarks (b : Buffer) (newRanges : List CharIndexRange) : Buffer :=
  let oldR := b.marks.dedup
  let newR := newRanges.dedup
  { b with marks := newR.filter (fun r => r ∉ oldR) ++ oldR.filter (fun r => r ∉ newR) }

/-- Model of `Buffer::apply_edit` (src lines 583-656), as a success flag plus the
resulting buffer: like the Rust `&mut self` method, the buffer returned on failure
keeps every mutation made before the failing step.  The selection-history remap of
src lines 651-653 is omitted because selection contents are opaque here. -/
def Buffer.applyEdit (b : Buffer) (edit : Edit) (lastVisibleLine : Nat) : Bool × Buffer :=
  let b1 :=
    match textCharIndexRangeToByteRange b.text edit.range with
    | some byteRange =>
      let lastLineLenBytes :=
        ((getLineByLineIndexT b.text lastVisibleLine).map utf8Len).getD 0
      let rangeStop := (tryLineToByte b.text lastVisibleLine).getD 0 + lastLineLenBytes
      let byteDelta : Int := (utf8Len edit.new : Int) - ((byteRange.2 - byteRange.1 : Nat) : Int)
      { b with highlightedSpans :=
          spansApplyEdit b.highlightedSpans byteRange.1 rangeStop byteDelta }
    | none => b
  let quickfixWithRanges := b1.quickfixItems.filterMap (fun item =>
    (textPositionRangeToCharIndexRange b1.text item.rangeStart item.rangeStop).map
      (fun r => (r, item)))
  let b2 := { b1 with quickfixItems := [] }
  match tryRemove b2.text edit.range.start edit.endIdx with
  | none => (false, b2)
  | some t1 =>
    match tryInsert t1 edit.range.start edit.new with
    | none => (false, { b2 with text := t1 })
    | some t2 =>
      let b3 := { b2 with text := t2, dirty := true, owner := .user }
      let b4 := { b3 with quickfixItems :=
        quickfixWithRanges.filterMap (fun (ri : CharIndexRange × QuickfixListItem) =>
          (ri.1.applyEdit edit).bind (fun r2 =>
            (textCharIndexRangeToPositionRange b3.text r2).map
              (fun (pq : Position × Position) => (⟨pq.1, pq.2⟩ : QuickfixListItem)))) }
      let b5 := { b4 with
        marks := b4.marks.filterMap (fun (r : CharIndexRange) => r.applyEdit edit),
        diagnostics := b4.diagnostics.filterMap (fun (d : Diagnostic) =>
          (d.range.applyEdit edit).map (fun r => ⟨r⟩)) }
      (true, b5)

/-- The `try_fold` over the transaction's edits (src lines 542-545): applies the
edits in order, stopping at the first failure and returning the buffer as mutated
so far. -/
def Buffer.applyEditsSeq (b : Buffer) (es : List Edit) (lastVisibleLine : Nat) :
    Bool × Buffer :=
  match es with
  | [] => (true, b)
  | e :: rest =>
    match b.applyEdit e lastVisibleLine with
    | (true, b2) => b2.applyEditsSeq rest lastVisibleLine
    | (false, b2) => (false, b2)

/-- Model of `Buffer::reparse_tree` (src lines 700-707): the syntax tree is not part
of this model, so reparsing does not change the modelled state. -/
def Buffer.reparseTree (b : Buffer) : Buffer := b

/-- Model of `Buffer::apply_edit_transaction` (src lines 516-580), as an optional
result (the new selection set and the forward protocol diff edits; `none` models
`Err`) plus the resulting buffer state, mutated exactly as far as the Rust method
mutates `self` before returning.  The new selection set is the caller's selection
set (the `non_empty_selections` refinement is omitted: selection contents are
opaque here). -/
def Buffer.applyEditTransaction (b : Buffer) (t : EditTransaction)
    (currentSelectionSet : SelectionSet) (reparse updateUndoStack : Bool)
    (lastVisibleLine : Nat) :
    Option (SelectionSet × List DiffEdit) × Buffer :=
  let newSelectionSet := currentSelectionSet
  let currentBufferState : BufferState := ⟨currentSelectionSet, b.marks⟩
  let inverted := t.inverse
  match traverseOption (toVscodeDiffEdit b.text) t.unnormalizedEdits with
  | none => (none, b)
  | some appliedVscodeEdits =>
    match b.applyEditsSeq t.edits lastVisibleLine with
    | (false, b1) => (none, b1)
    | (true, b1) =>
      match traverseOption (toVscodeDiffEdit b1.text) inverted.unnormalizedEdits with
      | none => (none, b1)
      | some invertedVscodeEdits =>
        let newBufferState : BufferState := ⟨newSelectionSet, b1.marks⟩
        let b2 :=
          if updateUndoStack then
            { b1 with
              undoStack := ⟨inverted, currentBufferState, newBufferState,
                invertedVscodeEdits, appliedVscodeEdits⟩ :: b1.undoStack,
              redoStack := [] }
          else b1
        let b3 := if reparse then b2.reparseTree else b2
        let b4 := { b3 with batchId := b3.batchId + 1 }
        (some (newSelectionSet, appliedVscodeEdits), b4)

/-- Model of `Buffer::undo` (src lines 1109-1132). -/
def Buffer.undo (b : Buffer) (lastVisibleLine : Nat) :
    Option (Option (SelectionSet × List DiffEdit)) × Buffer :=
  match b.undoStack with
  | [] => (some none, b)
  | h :: rest =>
    let b0 := { b with undoStack := rest }
    let edits := h.unnormalizedEdits
    match b0.applyEditsSeq h.editTransaction.edits lastVisibleLine with
    | (false, b1) => (none, b1)
    | (true, b1) =>
      let b2 := b1.reparseTree
      let b3 := { b2 with redoStack := h.inverse :: b2.redoStack }
      (some (some (h.oldState.selectionSet, edits)), b3)

/-- Model of `Buffer::redo` (src lines 1084-1107). -/
def Buffer.redo (b : Buffer) (lastVisibleLine : Nat) :
    Option (Option (SelectionSet × List DiffEdit)) × Buffer :=
  match b.redoStack with
  | [] => (some none, b)
  | h :: rest =>
    let b0 := { b with redoStack := rest }
    let edits := h.unnormalizedEdits
    match b0.applyEditsSeq h.editTransaction.edits lastVisibleLine with
    | (false, b1) => (none, b1)
    | (true, b1) =>
      let b2 := b1.reparseTree
      let b3 := { b2 with undoStack := h.inverse :: b2.undoStack }
      (some (some (h.oldState.selectionSet, edits)), b3)

/-! ### The content reconciler: `Buffer::get_edit_transaction` (src lines 873-953) -/

/-- A line-diff change tag (the `similar::ChangeTag` collaborator). -/
inductive ChangeTag where
  | delete
  | equal
  | insert
  deriving DecidableEq

/-- Modelled from the spec: the line diff itself is an external capability
("given two texts, produce a sequence of line-level insert/delete/equal
operations", spec section 1).  A change carries its line's text and the
collaborator's missing-newline flag (true exactly when the line lacks a
terminating newline; the displayed form of such a change appends a synthetic
newline, which src lines 919-925 strip back off). -/
structure Change where
  tag : ChangeTag
  value : Text
  missingNewline : Bool
  deriving DecidableEq

/-- Model of `str::trim_end_matches('\n')`. -/
def trimEndNl (t : Text) : Text := (t.reverse.dropWhile (· = '\n')).reverse

/-- The inserted content pushed by src lines 919-925: the change's displayed form,
with the synthetic trailing newline stripped when the collaborator flagged the
line as missing its newline. -/
def changeContent (c : Change) : Text :=
  let content := if c.missingNewline then c.value ++ ['\n'] else c.value
  if c.missingNewline && endsNlB content then trimEndNl content else content

/-- The mutable state of the diff loop of src lines 879-928. -/
structure DiffState where
  oldLineIndex : Nat
  edits : List Edit
  replacement : List Text
  currentRangeStart : Option Nat
  currentRangeEnd : Nat

/-- Building one coalesced edit (src lines 898-906 and 933-940): the char range of
old lines `[start, stop)`, its original text as `old`, and the joined replacement
lines as `new`. -/
def flushEdit (t : Text) (start stop : Nat) (repl : List Text) : Option Edit :=
  (textPositionRangeToCharIndexRange t ⟨start, 0⟩ ⟨stop, 0⟩).map (fun r =>
    ⟨r, sliceT t r.start r.stop, repl.flatten⟩)

/-- The diff loop of src lines 885-941 over the change sequence, returning the
coalesced edits. -/
def diffFold (t : Text) : List Change → DiffState → Option (List Edit)
  | [], st =>
    match st.currentRangeStart with
    | none => some st.edits
    | some start =>
      match flushEdit t start st.currentRangeEnd st.replacement with
      | none => none
      | some e => some (st.edits ++ [e])
  | c :: cs, st =>
    match c.tag with
    | .delete =>
      let start := st.currentRangeStart.getD st.oldLineIndex
      diffFold t cs { st with
        currentRangeStart := some start,
        currentRangeEnd := st.oldLineIndex + 1,
        oldLineIndex := st.oldLineIndex + 1 }
    | .equal =>
      match st.currentRangeStart with
      | some start =>
        match flushEdit t start st.currentRangeEnd st.replacement with
        | none => none
        | some e =>
          diffFold t cs { st with
            edits := st.edits ++ [e],
            replacement := [],
            currentRangeStart := none,
            oldLineIndex := st.oldLineIndex + 1 }
      | none => diffFold t cs { st with oldLineIndex := st.oldLineIndex + 1 }
    | .insert =>
      let st2 :=
        match st.currentRangeStart with
        | some _ => st
        | none => { st with
            currentRangeStart := some st.oldLineIndex,
            currentRangeEnd := st.oldLineIndex }
      diffFold t cs { st2 with replacement := st2.replacement ++ [changeContent c] }

/-- Model of `Buffer::get_edit_transaction` (src lines 873-953): the coalesced
diff edits, one action group per edit.  The line diff of `old` versus `new` is
supplied as the change sequence `changes` (see `Change`). -/
def Buffer.getEditTransaction (b : Buffer) (changes : List Change) :
    Option EditTransaction :=
  (diffFold b.text changes ⟨0, [], [], none, 0⟩).map (fun es =>
    ⟨es.map (fun e => ⟨[e]⟩)⟩)

/-- The old-side lines described by a change sequence (delete and equal runs). -/
def changeLinesOld (cs : List Change) : List Text :=
  cs.filterMap (fun c =>
    match c.tag with
    | .delete => some c.value
    | .equal => some c.value
    | .insert => none)

/-- The new-side lines described by a change sequence (insert and equal runs). -/
def changeLinesNew (cs : List Change) : List Text :=
  cs.filterMap (fun c =>
    match c.tag with
    | .delete => none
    | .equal => some c.value
    | .insert => some c.value)

/-- The contract of the line-diff collaborator for old text `a` and new text `b`:
the delete/equal lines spell out exactly the lines of `a`, the insert/equal lines
spell out exactly the lines of `b`, and the missing-newline flag is set exactly on
lines lacking a terminating newline. -/
def DiffOk (a bNew : Text) (cs : List Change) : Prop :=
  changeLinesOld cs = simLines a ∧ changeLinesNew cs = simLines bNew ∧
    ∀ c ∈ cs, c.missingNewline = !(endsNlB c.value)

instance (a bNew : Text) (cs : List Change) : Decidable (DiffOk a bNew cs) := by
  unfold DiffOk; infer_instance

/-! ### Semantic apply: text-level projection of the edit fold -/

/-- Text-level effect of one `Buffer::apply_edit` on the rope: the `try_remove`
then `try_insert` of src lines 616-618. -/
def textEditStep (t : Text) (e : Edit) : Option Text :=
  (tryRemove t e.range.start e.endIdx).bind (fun t1 => tryInsert t1 e.range.start e.new)

/-- Text-level sequential application of the edits of a transaction. -/
def textFoldSeq : List Edit → Text → Option Text
  | [], t => some t
  | e :: es, t => (textEditStep t e).bind (textFoldSeq es)

/-- Simultaneous application of an ordered edit list whose ranges are given in
pre-snapshot coordinates; `b` is the char position in the original text at which
the suffix `t` starts. -/
def applySimFrom : Nat → List Edit → Text → Text
  | _, [], t => t
  | b, e :: es, t =>
    t.take (e.range.start - b) ++ e.new ++
      applySimFrom e.range.stop es (t.drop (e.range.stop - b))

/-- Well-formed edit list over a text of length `n`, starting at or after char
`b`: ranges ordered and non-overlapping, in bounds, and each range exactly covers
its `old` text. -/
def chainOk (b n : Nat) : List Edit → Prop
  | [] => True
  | e :: es => b ≤ e.range.start ∧ e.range.start ≤ e.range.stop ∧ e.range.stop ≤ n ∧
      e.range.stop = e.range.start + e.old.length ∧ chainOk e.range.stop n es

/-! ### Concrete inputs used by witnesses and counterexamples -/

/-- A buffer with marks and a diagnostic around the edited region (C3 witness). -/
def c3wBuffer : Buffer :=
  { Buffer.new ("abcdef".toList) with
    marks := [⟨0, 1⟩, ⟨2, 4⟩, ⟨5, 6⟩],
    diagnostics := [⟨⟨2, 4⟩⟩] }

/-- Replace chars 2-4 ("cd") by "Z" (C3 witness). -/
def c3wEdit : Edit := ⟨⟨2, 4⟩, "cd".toList, "Z".toList⟩

/-- A buffer holding "abcd" (C2 counterexample). -/
def c2wBuffer : Buffer := Buffer.new ("abcd".toList)

/-- A transaction violating the Edit invariant of spec section 3 (`old` must equal
the text occupying `range`): its first edit removes the whole text while declaring
a one-char `old`, so the second edit's cumulative offset is wrong and its
application fails after the first edit has already been committed. -/
def c2wTransaction : EditTransaction :=
  ⟨[⟨[⟨⟨0, 4⟩, "a".toList, []⟩]⟩, ⟨[⟨⟨4, 4⟩, [], "x".toList⟩]⟩]⟩

/-- A buffer holding "ab" (C2 amended witness). -/
def c2wBuffer2 : Buffer := Buffer.new ("ab".toList)

/-- A transaction whose edit range is out of bounds, so the pre-apply protocol
diff computation fails before any mutation (C2 amended witness). -/
def c2wTransaction2 : EditTransaction :=
  ⟨[⟨[⟨⟨0, 9⟩, "abcdefghi".toList, []⟩]⟩]⟩

/-- A buffer for the C4 witness. -/
def c4wBuffer : Buffer := Buffer.new ("hi".toList)

/-- A highlight span for the C4 witness. -/
def c4wSpan : HighlightedSpan := ⟨0, 1, 0⟩

/-- The empty transaction (C4 witness). -/
def c4wTransaction : EditTransaction := ⟨[]⟩

/-- A buffer with empty undo and redo stacks (C6 witness). -/
def c6wBuffer : Buffer := Buffer.new ("x".toList)

/-- Old text for the C1 witness. -/
def c1wOld : Text := "hello\nworld\n".toList

/-- New text for the C1 witness. -/
def c1wNew : Text := "hello\nbrave\nnew\nworld\n".toList

/-- A line diff of the C1 witness texts: keep "hello", insert two lines, keep
"world". -/
def c1wChanges : List Change :=
  [⟨.equal, "hello\n".toList, false⟩, ⟨.insert, "brave\n".toList, false⟩,
    ⟨.insert, "new\n".toList, false⟩, ⟨.equal, "world\n".toList, false⟩]

/-! ### Line and conversion lemmas -/

theorem linesAuxR_flatten (t : Text) : ∀ acc, (linesAuxR t acc).flatten = acc ++ t := by
  induction t with
  | nil => intro acc; simp [linesAuxR]
  | cons c cs ih =>
    intro acc
    by_cases h : c = '\n'
    · subst h; simp [linesAuxR, ih]
    · simp [linesAuxR, h, ih]

theorem linesAuxS_flatten (t : Text) : ∀ acc, (linesAuxS t acc).flatten = acc ++ t := by
  induction t with
  | nil =>
    intro acc
    cases acc <;> simp [linesAuxS]
  | cons c cs ih =>
    intro acc
    by_cases h : c = '\n'
    · subst h; simp [linesAuxS, ih]
    · simp [linesAuxS, h, ih]

theorem ropeLines_flatten (t : Text) : (ropeLines t).flatten = t := by
  simpa using linesAuxR_flatten t []

theorem simLines_flatten (t : Text) : (simLines t).flatten = t := by
  simpa using linesAuxS_flatten t []

theorem endsNlB_cons (c : Char) (cs : Text) :
    endsNlB (c :: cs) = if cs.isEmpty then (c == '\n') else endsNlB cs := by
  cases cs with
  | nil => simp [endsNlB]
  | cons d ds => simp [endsNlB, List.getLast?_cons_cons]

theorem linesAuxR_eq_S (t : Text) :
    ∀ acc, linesAuxR t acc = linesAuxS t acc ++ (if hasPhantom t acc then [[]] else []) := by
  induction t with
  | nil =>
    intro acc
    cases acc <;> simp [linesAuxR, linesAuxS, hasPhantom]
  | cons c cs ih =>
    intro acc
    by_cases h : c = '\n'
    · subst h
      have hp : hasPhantom ('\n' :: cs) acc = hasPhantom cs [] := by
        cases cs with
        | nil => simp [hasPhantom, endsNlB]
        | cons d ds => simp [hasPhantom, endsNlB_cons]
      simp [linesAuxR, linesAuxS, ih, hp]
    · have hp : hasPhantom (c :: cs) acc = hasPhantom cs (acc ++ [c]) := by
        cases cs with
        | nil =>
          have : (acc ++ [c]).isEmpty = false := by
            simp [List.isEmpty_iff]
          simp [hasPhantom, endsNlB, h, this]
        | cons d ds => simp [hasPhantom, endsNlB_cons]
      simp [linesAuxR, linesAuxS, h, ih, hp]

theorem ropeLines_eq_simLines (t : Text) :
    ropeLines t = simLines t ++ (if hasPhantom t [] then [[]] else []) :=
  linesAuxR_eq_S t []

theorem linesAuxR_length (t : Text) : ∀ acc, (linesAuxR t acc).length = countNl t + 1 := by
  induction t with
  | nil => intro acc; simp [linesAuxR, countNl]
  | cons c cs ih =>
    intro acc
    by_cases h : c = '\n'
    · subst h; simp [linesAuxR, ih, countNl, List.countP_cons]
    · simp [linesAuxR, h, ih, countNl, List.countP_cons]

theorem ropeLenLines_eq (t : Text) : ropeLenLines t = countNl t + 1 := by
  simpa [ropeLenLines, ropeLines] using linesAuxR_length t []

theorem simLines_length_le (t : Text) : (simLines t).length ≤ ropeLenLines t := by
  rw [ropeLenLines, ropeLines_eq_simLines]
  by_cases h : hasPhantom t [] <;> simp [h]

theorem lenLinesT_le (t : Text) : lenLinesT t ≤ ropeLenLines t := by
  simp [lenLinesT]

theorem lenLinesT_eq (t : Text) :
    lenLinesT t = if t.isEmpty then 1 else (simLines t).length := by
  cases t with
  | nil => simp [lenLinesT, ropeLenLines, ropeLines, linesAuxR, endsNlB]
  | cons c cs =>
    have h := ropeLines_eq_simLines (c :: cs)
    have hph : hasPhantom (c :: cs) ([] : Text) = endsNlB (c :: cs) := by
      simp [hasPhantom]
    simp only [lenLinesT, ropeLenLines, h, List.length_append, hph, List.isEmpty_cons]
    by_cases he : endsNlB (c :: cs) <;> simp [he]

theorem simLines_length_le_lenLinesT (t : Text) : (simLines t).length ≤ lenLinesT t := by
  rw [lenLinesT_eq]
  cases t with
  | nil => simp [simLines, linesAuxS]
  | cons c cs => simp

theorem flatten_split (L : List Text) (n : Nat) :
    L.flatten = (L.take n).flatten ++ (L.drop n).flatten := by
  rw [← List.flatten_append, List.take_append_drop]

theorem flatten_take_of_take (M : List Text) (n : Nat) :
    M.flatten.take (((M.take n).flatten).length) = (M.take n).flatten := by
  rw [flatten_split M n]
  exact List.take_left _ _

theorem flatten_drop_of_take (M : List Text) (n : Nat) :
    M.flatten.drop (((M.take n).flatten).length) = (M.drop n).flatten := by
  rw [flatten_split M n]
  exact List.drop_left _ _

theorem flatten_take_length_le (L : List Text) (i : Nat) :
    ((L.take i).flatten).length ≤ L.flatten.length := by
  conv_rhs => rw [flatten_split L i]
  rw [List.length_append]
  exact Nat.le_add_right _ _

theorem take_ropeLines (t : Text) {j : Nat} (h : j ≤ (simLines t).length) :
    (ropeLines t).take j = (simLines t).take j := by
  rw [ropeLines_eq_simLines, List.take_append_of_le_length h]

theorem lineStart_eq_charsUpTo (t : Text) {j : Nat} (h : j ≤ (simLines t).length) :
    lineStart t j = charsUpTo t j := by
  rw [lineStart, take_ropeLines t h]; rfl

theorem tryLineToChar_eq_some (t : Text) {j : Nat} (h : j ≤ ropeLenLines t) :
    tryLineToChar t j = some (lineStart t j) := by
  simp [tryLineToChar, h]

theorem positionToChar_line0 (t : Text) {j : Nat} (h : j ≤ (simLines t).length) :
    textPositionToChar t ⟨j, 0⟩ = some (charsUpTo t j) := by
  have hj : j ≤ lenLinesT t := le_trans h (simLines_length_le_lenLinesT t)
  have hmin : min j (lenLinesT t) = j := min_eq_left hj
  have hrope : j ≤ ropeLenLines t := le_trans h (simLines_length_le t)
  simp [textPositionToChar, hmin, tryLineToChar_eq_some t hrope, lineStart_eq_charsUpTo t h]

theorem lineStart_le_length (t : Text) (i : Nat) : lineStart t i ≤ t.length := by
  have := flatten_take_length_le (ropeLines t) i
  rwa [ropeLines_flatten] at this

theorem charsUpTo_le_length (t : Text) (j : Nat) : charsUpTo t j ≤ t.length := by
  have := flatten_take_length_le (simLines t) j
  rwa [simLines_flatten] at this

theorem charsUpTo_full (t : Text) : charsUpTo t (simLines t).length = t.length := by
  simp [charsUpTo, simLines_flatten]

theorem charsUpTo_add (t : Text) {i j : Nat} (h : i ≤ j) :
    charsUpTo t j = charsUpTo t i + ((((simLines t).drop i).take (j - i)).flatten).length := by
  have : j = i + (j - i) := by omega
  rw [charsUpTo, this, List.take_add]
  simp [charsUpTo]

theorem charsUpTo_mono (t : Text) {i j : Nat} (h : i ≤ j) :
    charsUpTo t i ≤ charsUpTo t j := by
  rw [charsUpTo_add t h]; omega

theorem drop_charsUpTo (t : Text) (j : Nat) :
    t.drop (charsUpTo t j) = ((simLines t).drop j).flatten := by
  calc t.drop (charsUpTo t j)
      = ((simLines t).flatten).drop (charsUpTo t j) := by rw [simLines_flatten]
    _ = ((simLines t).drop j).flatten := flatten_drop_of_take _ j

theorem sliceT_lines (t : Text) {s k : Nat} (hs : s ≤ k) :
    sliceT t (charsUpTo t s) (charsUpTo t k) = (((simLines t).drop s).take (k - s)).flatten := by
  rw [sliceT, drop_charsUpTo, charsUpTo_add t hs]
  have h2 : charsUpTo t s + ((((simLines t).drop s).take (k - s)).flatten).length -
      charsUpTo t s = ((((simLines t).drop s).take (k - s)).flatten).length := by omega
  rw [h2]
  exact flatten_take_of_take _ _

theorem lineStart_succ (t : Text) {i : Nat} (h : i < (ropeLines t).length) :
    lineStart t (i + 1) = lineStart t i + ((ropeLines t)[i]).length := by
  rw [lineStart, lineStart, List.take_succ, List.getElem?_eq_getElem h,
    Option.toList_some, List.flatten_append, List.length_append, List.flatten_cons,
    List.flatten_nil, List.append_nil]

/-- C7 core fact: `position_to_char` never fails and its result is within bounds. -/
theorem textPositionToChar_total (t : Text) (p : Position) :
    ∃ i, textPositionToChar t p = some i ∧ i ≤ t.length := by
  have hline : min p.line (lenLinesT t) ≤ ropeLenLines t :=
    le_trans (min_le_right _ _) (lenLinesT_le t)
  rw [textPositionToChar, tryLineToChar_eq_some t hline]
  cases hget : getLineByLineIndexT t (min p.line (lenLinesT t)) with
  | none =>
    refine ⟨_, rfl, ?_⟩
    simp only [hget, Option.map_none', Option.getD_none, Nat.min_zero, Nat.add_zero]
    exact lineStart_le_length t _
  | some l =>
    refine ⟨_, rfl, ?_⟩
    have hlt : min p.line (lenLinesT t) < (ropeLines t).length := by
      by_contra hcon
      simp [getLineByLineIndexT, List.getElem?_eq_none (le_of_not_lt hcon)] at hget
    have hl : (ropeLines t)[min p.line (lenLinesT t)] = l := by
      simpa [getLineByLineIndexT, List.getElem?_eq_getElem hlt] using hget
    have hsucc := lineStart_succ t hlt
    rw [hl] at hsucc
    have hle : lineStart t (min p.line (lenLinesT t) + 1) ≤ t.length :=
      lineStart_le_length t _
    simp only [hget, Option.map_some', Option.getD_some]
    have : min p.column l.length ≤ l.length := min_le_right _ _
    omega

/-! ### Dissection of `Buffer::apply_edit` and the edit fold -/

theorem applyEdit_dissect (b : Buffer) (e : Edit) (lvl : Nat) :
    (b.applyEdit e lvl).1 = (textEditStep b.text e).isSome ∧
    (b.applyEdit e lvl).2.batchId = b.batchId ∧
    (b.applyEdit e lvl).2.undoStack = b.undoStack ∧
    (b.applyEdit e lvl).2.redoStack = b.redoStack ∧
    ∀ T, textEditStep b.text e = some T →
      (b.applyEdit e lvl).2.text = T ∧
      (b.applyEdit e lvl).2.marks = b.marks.filterMap (fun r => r.applyEdit e) ∧
      (b.applyEdit e lvl).2.diagnostics = b.diagnostics.filterMap (fun d =>
        (d.range.applyEdit e).map (fun r => ⟨r⟩)) := by
  cases hbr : textCharIndexRangeToByteRange b.text e.range <;>
    cases hrm : tryRemove b.text e.range.start e.endIdx
  · simp [Buffer.applyEdit, textEditStep, hbr, hrm]
  · rename_i t1
    cases hin : tryInsert t1 e.range.start e.new <;>
      simp [Buffer.applyEdit, textEditStep, hbr, hrm, hin]
  · simp [Buffer.applyEdit, textEditStep, hbr, hrm]
  · rename_i t1
    cases hin : tryInsert t1 e.range.start e.new <;>
      simp [Buffer.applyEdit, textEditStep, hbr, hrm, hin]

theorem applyEditsSeq_batchId (es : List Edit) :
    ∀ (b : Buffer) (lvl : Nat), ((b.applyEditsSeq es lvl).2).batchId = b.batchId := by
  induction es with
  | nil => intro b lvl; rfl
  | cons e rest ih =>
    intro b lvl
    have hd := (applyEdit_dissect b e lvl).2.1
    rcases happ : b.applyEdit e lvl with ⟨ok, b2⟩
    rw [happ] at hd
    cases ok with
    | true =>
      have hstep : b.applyEditsSeq (e :: rest) lvl = b2.applyEditsSeq rest lvl := by
        simp [Buffer.applyEditsSeq, happ]
      rw [hstep, ih b2 lvl]; exact hd
    | false =>
      have hstep : b.applyEditsSeq (e :: rest) lvl = (false, b2) := by
        simp [Buffer.applyEditsSeq, happ]
      rw [hstep]; exact hd

theorem applyEditsSeq_success (es : List Edit) :
    ∀ (b : Buffer) (lvl : Nat) (T : Text), textFoldSeq es b.text = some T →
      (b.applyEditsSeq es lvl).1 = true ∧ (b.applyEditsSeq es lvl).2.text = T := by
  induction es with
  | nil =>
    intro b lvl T h
    simp [textFoldSeq] at h
    subst h
    exact ⟨rfl, rfl⟩
  | cons e rest ih =>
    intro b lvl T h
    simp only [textFoldSeq, Option.bind_eq_bind] at h
    rcases hstep : textEditStep b.text e with _ | T1
    · rw [hstep] at h; simp at h
    · rw [hstep] at h
      simp only [Option.some_bind] at h
      have hd := applyEdit_dissect b e lvl
      rcases happ : b.applyEdit e lvl with ⟨ok, b2⟩
      rw [happ] at hd
      have hok : ok = true := by
        have := hd.1; rw [hstep] at this; simpa using this
      subst hok
      have htext : b2.text = T1 := (hd.2.2.2.2 T1 hstep).1
      have hstep2 : b.applyEditsSeq (e :: rest) lvl = b2.applyEditsSeq rest lvl := by
        simp [Buffer.applyEditsSeq, happ]
      rw [hstep2]
      exact ih b2 lvl T (by rw [htext]; exact h)

theorem undo_batchId (b : Buffer) (lvl : Nat) : ((b.undo lvl).2).batchId = b.batchId := by
  cases hs : b.undoStack with
  | nil => simp [Buffer.undo, hs]
  | cons h rest =>
    have hb := applyEditsSeq_batchId h.editTransaction.edits { b with undoStack := rest } lvl
    rcases happ : Buffer.applyEditsSeq { b with undoStack := rest }
        h.editTransaction.edits lvl with ⟨ok, b1⟩
    rw [happ] at hb
    cases ok <;> simp [Buffer.undo, hs, happ, Buffer.reparseTree] <;> exact hb

theorem redo_batchId (b : Buffer) (lvl : Nat) : ((b.redo lvl).2).batchId = b.batchId := by
  cases hs : b.redoStack with
  | nil => simp [Buffer.redo, hs]
  | cons h rest =>
    have hb := applyEditsSeq_batchId h.editTransaction.edits { b with redoStack := rest } lvl
    rcases happ : Buffer.applyEditsSeq { b with redoStack := rest }
        h.editTransaction.edits lvl with ⟨ok, b1⟩
    rw [happ] at hb
    cases ok <;> simp [Buffer.redo, hs, happ, Buffer.reparseTree] <;> exact hb

theorem applyEditTransaction_batchId (b : Buffer) (t : EditTransaction)
    (sel : SelectionSet) (rp uu : Bool) (lvl : Nat) :
    (b.applyEditTransaction t sel rp uu lvl).1.isSome = true →
    (b.applyEditTransaction t sel rp uu lvl).2.batchId = b.batchId + 1 := by
  unfold Buffer.applyEditTransaction
  split
  · intro h; simp at h
  · split
    · intro h; simp at h
    · rename_i b1 heq
      rcases hm2 : traverseOption (toVscodeDiffEdit b1.text) t.inverse.unnormalizedEdits
        with _ | vi
      · intro h; simp only [hm2] at h; simp at h
      · intro _
        simp only [hm2]
        have hb : b1.batchId = b.batchId := by
          have h2 := applyEditsSeq_batchId t.edits b lvl
          rw [heq] at h2
          simpa using h2
        simp only [Buffer.reparseTree]
        cases uu <;> cases rp <;> simp [hb]

/-! ### Lemmas for the diff round-trip (C1) -/

theorem changeContent_eq (c : Change) (h : c.missingNewline = !(endsNlB c.value)) :
    changeContent c = c.value := by
  cases hm : c.missingNewline with
  | false => simp [changeContent, hm]
  | true =>
    rw [hm] at h
    have hv : endsNlB c.value = false := by
      cases hvv : endsNlB c.value
      · rfl
      · rw [hvv] at h; simp at h
    have hcontent : endsNlB (c.value ++ ['\n']) = true := by simp [endsNlB]
    have hdrop : c.value.reverse.dropWhile (fun x => x = '\n') = c.value.reverse := by
      cases hrev : c.value.reverse with
      | nil => rfl
      | cons x xs =>
        have hx : ¬ (x = '\n') := by
          intro hx
          have hlast : c.value.getLast? = some '\n' := by
            rw [← List.head?_reverse, hrev, hx]; rfl
          simp [endsNlB, hlast] at hv
        simp [List.dropWhile, hx]
    have htrim : trimEndNl (c.value ++ ['\n']) = c.value := by
      simp only [trimEndNl, List.reverse_append, List.reverse_singleton,
        List.singleton_append, List.dropWhile_cons]
      simp [hdrop]
    simp [changeContent, hm, hcontent, htrim]

theorem charsUpTo_zero (t : Text) : charsUpTo t 0 = 0 := rfl

theorem charsUpTo_succ (t : Text) {k : Nat} (h : k < (simLines t).length) :
    charsUpTo t (k + 1) = charsUpTo t k + ((simLines t)[k]).length := by
  rw [charsUpTo, charsUpTo, List.take_succ, List.getElem?_eq_getElem h,
    Option.toList_some, List.flatten_append, List.length_append, List.flatten_cons,
    List.flatten_nil, List.append_nil]

theorem sliceT_length (t : Text) {s k : Nat} (_ : s ≤ k) (hk : k ≤ t.length) :
    (sliceT t s k).length = k - s := by
  simp [sliceT]
  omega

theorem chainOk_mono {b b2 n : Nat} {F : List Edit} (h : chainOk b2 n F) (hb : b ≤ b2) :
    chainOk b n F := by
  cases F with
  | nil => trivial
  | cons e es =>
    obtain ⟨h1, h2⟩ := h
    exact ⟨le_trans hb h1, h2⟩

theorem chainOk_ge {b n : Nat} {F : List Edit} (h : chainOk b n F) :
    ∀ e ∈ F, b ≤ e.range.start := by
  induction F generalizing b with
  | nil => intro e he; cases he
  | cons f fs ih =>
    intro e he
    obtain ⟨h1, h2, h3, h4, h5⟩ := h
    cases he with
    | head => exact h1
    | tail _ hmem => exact le_trans (le_trans h1 h2) (ih h5 e hmem)

theorem chainOk_wf {b n : Nat} {F : List Edit} (h : chainOk b n F) :
    ∀ e ∈ F, e.range.start ≤ e.range.stop := by
  induction F generalizing b with
  | nil => intro e he; cases he
  | cons f fs ih =>
    intro e he
    obtain ⟨h1, h2, h3, h4, h5⟩ := h
    cases he with
    | head => exact h2
    | tail _ hmem => exact ih h5 e hmem

theorem chainOk_bounds {b n : Nat} {F : List Edit} (h : chainOk b n F) :
    ∀ e ∈ F, e.range.start ≤ n ∧ e.range.stop ≤ n := by
  induction F generalizing b with
  | nil => intro e he; cases he
  | cons f fs ih =>
    intro e he
    obtain ⟨h1, h2, h3, h4, h5⟩ := h
    cases he with
    | head => exact ⟨le_trans h2 h3, h3⟩
    | tail _ hmem => exact ih h5 e hmem

theorem chainOk_chain' {b n : Nat} {F : List Edit} (h : chainOk b n F) :
    List.Chain' (fun a c => a.range.start ≤ c.range.start) F := by
  induction F generalizing b with
  | nil => exact List.chain'_nil
  | cons f fs ih =>
    obtain ⟨h1, h2, h3, h4, h5⟩ := h
    cases fs with
    | nil => exact List.chain'_singleton f
    | cons g gs =>
      have hg1 := h5.1
      exact List.chain'_cons.mpr ⟨by omega, ih h5⟩

theorem sortByStart_eq_self {F : List Edit}
    (h : List.Chain' (fun a c => a.range.start ≤ c.range.start) F) :
    sortByStart F = F := by
  induction F with
  | nil => rfl
  | cons e es ih =>
    have hes := ih h.tail
    show insertSorted e (sortByStart es) = e :: es
    rw [hes]
    cases es with
    | nil => rfl
    | cons f fs =>
      have hef : e.range.start ≤ f.range.start := List.chain'_cons.mp h |>.1
      simp [insertSorted, hef]

theorem applySimFrom_shift (F : List Edit) (b : Nat) (P T : Text)
    (hge : ∀ e ∈ F, b + P.length ≤ e.range.start)
    (hwf : ∀ e ∈ F, e.range.start ≤ e.range.stop) :
    applySimFrom b F (P ++ T) = P ++ applySimFrom (b + P.length) F T := by
  cases F with
  | nil => rfl
  | cons e es =>
    have h1 : b + P.length ≤ e.range.start := hge e (List.mem_cons_self e es)
    have h2 : e.range.start ≤ e.range.stop := hwf e (List.mem_cons_self e es)
    show (P ++ T).take (e.range.start - b) ++ e.new ++
        applySimFrom e.range.stop es ((P ++ T).drop (e.range.stop - b)) =
      P ++ (T.take (e.range.start - (b + P.length)) ++ e.new ++
        applySimFrom e.range.stop es (T.drop (e.range.stop - (b + P.length))))
    have htake : (P ++ T).take (e.range.start - b) =
        P ++ T.take (e.range.start - (b + P.length)) := by
      rw [List.take_append_eq_append_take]
      have hP : P.take (e.range.start - b) = P := List.take_of_length_le (by omega)
      have harith : e.range.start - b - P.length = e.range.start - (b + P.length) := by
        omega
      rw [hP, harith]
    have hdrop : (P ++ T).drop (e.range.stop - b) =
        T.drop (e.range.stop - (b + P.length)) := by
      rw [List.drop_append_eq_append_drop]
      have hP : P.drop (e.range.stop - b) = [] := List.drop_eq_nil_of_le (by omega)
      have harith : e.range.stop - b - P.length = e.range.stop - (b + P.length) := by
        omega
      rw [hP, harith, List.nil_append]
    rw [htake, hdrop]
    simp [List.append_assoc]

theorem diffFold_frame (t : Text) (cs : List Change) :
    ∀ (k : Nat) (E : List Edit) (repl : List Text) (pend : Option Nat) (re : Nat),
      diffFold t cs ⟨k, E, repl, pend, re⟩ =
        (diffFold t cs ⟨k, [], repl, pend, re⟩).map (E ++ ·) := by
  induction cs with
  | nil =>
    intro k E repl pend re
    cases pend with
    | none => simp [diffFold]
    | some s =>
      cases hf : flushEdit t s re repl with
      | none => simp [diffFold, hf]
      | some e => simp [diffFold, hf]
  | cons c cs ih =>
    intro k E repl pend re
    cases htag : c.tag with
    | delete =>
      simp only [diffFold, htag]
      exact ih (k + 1) E repl (some (pend.getD k)) (k + 1)
    | equal =>
      cases pend with
      | none =>
        simp only [diffFold, htag]
        exact ih (k + 1) E repl none re
      | some s =>
        simp only [diffFold, htag]
        cases hf : flushEdit t s re repl with
        | none => simp
        | some e =>
          simp only []
          rw [ih (k + 1) (E ++ [e]) [] none re, ih (k + 1) ([] ++ [e]) [] none re]
          rcases diffFold t cs ⟨k + 1, [], [], none, re⟩ with _ | L <;>
            simp [List.append_assoc]
    | insert =>
      cases pend with
      | none =>
        simp only [diffFold, htag]
        exact ih k E (repl ++ [changeContent c]) (some k) k
      | some s =>
        simp only [diffFold, htag]
        exact ih k E (repl ++ [changeContent c]) (some s) re

theorem flushEdit_eq (A : Text) {s k : Nat} (hs : s ≤ k) (hk : k ≤ (simLines A).length)
    (repl : List Text) :
    flushEdit A s k repl = some ⟨⟨charsUpTo A s, charsUpTo A k⟩,
      sliceT A (charsUpTo A s) (charsUpTo A k), repl.flatten⟩ := by
  simp [flushEdit, textPositionRangeToCharIndexRange,
    positionToChar_line0 A (le_trans hs hk), positionToChar_line0 A hk]

theorem drop_drop_charsUpTo (A : Text) {s k : Nat} (hs : s ≤ k) :
    (A.drop (charsUpTo A s)).drop (charsUpTo A k - charsUpTo A s) =
      A.drop (charsUpTo A k) := by
  rw [List.drop_drop]
  congr 1
  have := charsUpTo_mono A hs
  omega

theorem applySim_line_shift (A : Text) {k : Nat} {F : List Edit} {v : Text}
    (hk : k < (simLines A).length) (hv : (simLines A)[k] = v)
    (hch : chainOk (charsUpTo A (k + 1)) A.length F) :
    applySimFrom (charsUpTo A k) F (A.drop (charsUpTo A k)) =
      v ++ applySimFrom (charsUpTo A (k + 1)) F (A.drop (charsUpTo A (k + 1))) := by
  have hdropk : A.drop (charsUpTo A k) = v ++ A.drop (charsUpTo A (k + 1)) := by
    rw [drop_charsUpTo, drop_charsUpTo, List.drop_eq_getElem_cons hk, hv,
      List.flatten_cons]
  have hsucc : charsUpTo A (k + 1) = charsUpTo A k + v.length := by
    rw [charsUpTo_succ A hk, hv]
  rw [hdropk, applySimFrom_shift F (charsUpTo A k) v (A.drop (charsUpTo A (k + 1)))
    (fun e he => by have := chainOk_ge hch e he; omega)
    (chainOk_wf hch), ← hsucc]

theorem diffFold_main (A : Text) :
    ∀ (cs : List Change) (k : Nat) (pend : Option Nat) (repl : List Text) (re : Nat),
      k ≤ (simLines A).length →
      changeLinesOld cs = (simLines A).drop k →
      (∀ c ∈ cs, c.missingNewline = !(endsNlB c.value)) →
      (pend = none → repl = []) →
      (∀ s0, pend = some s0 → s0 ≤ k ∧ re = k) →
      ∃ F, diffFold A cs ⟨k, [], repl, pend, re⟩ = some F ∧
        chainOk (pend.elim (charsUpTo A k) (fun s0 => charsUpTo A s0)) A.length F ∧
        applySimFrom (pend.elim (charsUpTo A k) (fun s0 => charsUpTo A s0)) F
            (A.drop (pend.elim (charsUpTo A k) (fun s0 => charsUpTo A s0))) =
          (pend.elim ([] : Text) (fun _ => repl.flatten)) ++
            (changeLinesNew cs).flatten := by
  intro cs
  induction cs with
  | nil =>
    intro k pend repl re hk hOld hwf hnone hsome
    have hdropnil : (simLines A).drop k = [] := by
      rw [← hOld]; rfl
    cases pend with
    | none =>
      refine ⟨[], by simp [diffFold], trivial, ?_⟩
      simp [applySimFrom, drop_charsUpTo, hdropnil, changeLinesNew]
    | some s0 =>
      obtain ⟨hs0, hre⟩ := hsome s0 rfl
      subst re
      refine ⟨[⟨⟨charsUpTo A s0, charsUpTo A k⟩,
        sliceT A (charsUpTo A s0) (charsUpTo A k), repl.flatten⟩], ?_, ?_, ?_⟩
      · simp [diffFold, flushEdit_eq A hs0 hk repl]
      · refine ⟨le_refl _, charsUpTo_mono A hs0, charsUpTo_le_length A k, ?_, trivial⟩
        dsimp only
        rw [sliceT_length A (charsUpTo_mono A hs0) (charsUpTo_le_length A k)]
        have := charsUpTo_mono A hs0
        omega
      · show (A.drop (charsUpTo A s0)).take (charsUpTo A s0 - charsUpTo A s0) ++
            repl.flatten ++ applySimFrom (charsUpTo A k) []
              ((A.drop (charsUpTo A s0)).drop (charsUpTo A k - charsUpTo A s0)) =
          repl.flatten ++ (changeLinesNew []).flatten
        rw [Nat.sub_self, List.take_zero, List.nil_append, drop_drop_charsUpTo A hs0,
          drop_charsUpTo, hdropnil]
        simp [changeLinesNew, applySimFrom]
  | cons c cs ih =>
    intro k pend repl re hk hOld hwf hnone hsome
    obtain ⟨tag, v, mnl⟩ := c
    have hwfc : mnl = !(endsNlB v) := hwf _ (List.mem_cons_self _ _)
    have hwfcs : ∀ c2 ∈ cs, c2.missingNewline = !(endsNlB c2.value) :=
      fun c2 h2 => hwf c2 (List.mem_cons_of_mem _ h2)
    have hcontent : changeContent ⟨tag, v, mnl⟩ = v := changeContent_eq _ hwfc
    cases tag with
    | delete =>
      have hOldcons : v :: changeLinesOld cs = (simLines A).drop k := by
        rw [← hOld]; simp [changeLinesOld]
      have hk1 : k < (simLines A).length := by
        by_contra hc
        rw [List.drop_eq_nil_of_le (by omega)] at hOldcons
        cases hOldcons
      have hOld2 : changeLinesOld cs = (simLines A).drop (k + 1) := by
        have := List.drop_eq_getElem_cons hk1 (l := simLines A)
        rw [this] at hOldcons
        exact (List.cons.injEq _ _ _ _).mp hOldcons |>.2
      obtain ⟨F, hF, hch, happ⟩ := ih (k + 1) (some (pend.getD k)) repl (k + 1) hk1
        hOld2 hwfcs (by intro hco; cases hco) (by
          intro s0 hs0
          cases pend with
          | none => simp at hs0; omega
          | some s1 =>
            obtain ⟨hs1, _⟩ := hsome s1 rfl
            simp at hs0
            omega)
      refine ⟨F, ?_, ?_, ?_⟩
      · rw [← hF]; rfl
      · cases pend with
        | none => simpa using hch
        | some s1 => simpa using hch
      · cases pend with
        | none =>
          have hrepl : repl = [] := hnone rfl
          subst hrepl
          simpa [changeLinesNew] using happ
        | some s1 => simpa [changeLinesNew] using happ
    | equal =>
      have hOldcons : v :: changeLinesOld cs = (simLines A).drop k := by
        rw [← hOld]; simp [changeLinesOld]
      have hk1 : k < (simLines A).length := by
        by_contra hc
        rw [List.drop_eq_nil_of_le (by omega)] at hOldcons
        cases hOldcons
      have hvk : (simLines A)[k] = v := by
        have := List.drop_eq_getElem_cons hk1 (l := simLines A)
        rw [this] at hOldcons
        exact ((List.cons.injEq _ _ _ _).mp hOldcons |>.1).symm
      have hOld2 : changeLinesOld cs = (simLines A).drop (k + 1) := by
        have := List.drop_eq_getElem_cons hk1 (l := simLines A)
        rw [this] at hOldcons
        exact (List.cons.injEq _ _ _ _).mp hOldcons |>.2
      cases pend with
      | none =>
        have hrepl : repl = [] := hnone rfl
        subst hrepl
        obtain ⟨F, hF, hch, happ⟩ := ih (k + 1) none [] re hk1 hOld2 hwfcs
          (fun _ => rfl) (by intro s0 hs0; cases hs0)
        refine ⟨F, ?_, ?_, ?_⟩
        · rw [← hF]; rfl
        · exact chainOk_mono (by simpa using hch) (charsUpTo_mono A (Nat.le_succ k))
        · simp only [Option.elim] at happ ⊢
          rw [applySim_line_shift A hk1 hvk (by simpa using hch), happ]
          simp [changeLinesNew]
      | some s0 =>
        obtain ⟨hs0, hre⟩ := hsome s0 rfl
        subst re
        obtain ⟨F, hF, hch, happ⟩ := ih (k + 1) none [] k hk1 hOld2 hwfcs
          (fun _ => rfl) (by intro s1 hs1; cases hs1)
        have hframe := diffFold_frame A cs (k + 1)
          ([] ++ [⟨⟨charsUpTo A s0, charsUpTo A k⟩,
            sliceT A (charsUpTo A s0) (charsUpTo A k), repl.flatten⟩]) [] none k
        refine ⟨⟨⟨charsUpTo A s0, charsUpTo A k⟩,
          sliceT A (charsUpTo A s0) (charsUpTo A k), repl.flatten⟩ :: F, ?_, ?_, ?_⟩
        · show diffFold A (⟨ChangeTag.equal, v, mnl⟩ :: cs) ⟨k, [], repl, some s0, k⟩ =
            some _
          have : diffFold A (⟨ChangeTag.equal, v, mnl⟩ :: cs) ⟨k, [], repl, some s0, k⟩ =
              diffFold A cs ⟨k + 1, [] ++ [⟨⟨charsUpTo A s0, charsUpTo A k⟩,
                sliceT A (charsUpTo A s0) (charsUpTo A k), repl.flatten⟩], [], none, k⟩ := by
            simp [diffFold, flushEdit_eq A hs0 (le_of_lt hk1) repl]
          rw [this, hframe, hF]
          rfl
        · refine ⟨le_refl _, charsUpTo_mono A hs0, charsUpTo_le_length A k, ?_, ?_⟩
          · dsimp only
            rw [sliceT_length A (charsUpTo_mono A hs0) (charsUpTo_le_length A k)]
            have := charsUpTo_mono A hs0
            omega
          · exact chainOk_mono (by simpa using hch) (charsUpTo_mono A (Nat.le_succ k))
        · show (A.drop (charsUpTo A s0)).take (charsUpTo A s0 - charsUpTo A s0) ++
              repl.flatten ++ applySimFrom (charsUpTo A k) F
                ((A.drop (charsUpTo A s0)).drop (charsUpTo A k - charsUpTo A s0)) =
            repl.flatten ++ (changeLinesNew (⟨ChangeTag.equal, v, mnl⟩ :: cs)).flatten
          rw [Nat.sub_self, List.take_zero, List.nil_append, drop_drop_charsUpTo A hs0,
            applySim_line_shift A hk1 hvk (by simpa using hch)]
          simp only [Option.elim] at happ
          rw [happ]
          simp [changeLinesNew]
    | insert =>
      have hOld2 : changeLinesOld cs = (simLines A).drop k := by
        rw [← hOld]; simp [changeLinesOld]
      cases pend with
      | none =>
        have hrepl : repl = [] := hnone rfl
        subst hrepl
        obtain ⟨F, hF, hch, happ⟩ := ih k (some k) ([] ++ [changeContent
          ⟨ChangeTag.insert, v, mnl⟩]) k hk hOld2 hwfcs (by intro hco; cases hco)
          (by intro s0 hs0; simp at hs0; omega)
        refine ⟨F, ?_, ?_, ?_⟩
        · rw [← hF]; rfl
        · simpa using hch
        · simp only [Option.elim] at happ ⊢
          rw [happ, hcontent]
          simp [changeLinesNew]
      | some s0 =>
        obtain ⟨hs0, hre⟩ := hsome s0 rfl
        subst re
        obtain ⟨F, hF, hch, happ⟩ := ih k (some s0) (repl ++ [changeContent
          ⟨ChangeTag.insert, v, mnl⟩]) k hk hOld2 hwfcs (by intro hco; cases hco)
          (by intro s1 hs1; simp at hs1; subst hs1; exact ⟨hs0, rfl⟩)
        refine ⟨F, ?_, ?_, ?_⟩
        · rw [← hF]; rfl
        · simpa using hch
        · simp only [Option.elim] at happ ⊢
          rw [happ, hcontent]
          simp [changeLinesNew]

theorem take_append_add (D S : Text) (x : Nat) :
    (D ++ S).take (D.length + x) = D ++ S.take x := by
  rw [List.take_append_eq_append_take, List.take_of_length_le (by omega)]
  have harith : D.length + x - D.length = x := by omega
  rw [harith]

theorem drop_append_add (D S : Text) (x : Nat) :
    (D ++ S).drop (D.length + x) = S.drop x := by
  rw [List.drop_append_eq_append_drop, List.drop_eq_nil_of_le (by omega),
    List.nil_append]
  have harith : D.length + x - D.length = x := by omega
  rw [harith]

theorem textFoldSeq_norm (F : List Edit) :
    ∀ (D S : Text) (bb : Nat) (d : Int),
      (D.length : Int) = (bb : Int) + d →
      chainOk bb (bb + S.length) F →
      textFoldSeq (offsetEdits d F) (D ++ S) = some (D ++ applySimFrom bb F S) ∧
      ∀ e2 ∈ offsetEdits d F,
        e2.range.start + e2.new.length ≤ (D ++ applySimFrom bb F S).length := by
  induction F with
  | nil =>
    intro D S bb d hD hch
    exact ⟨rfl, fun e2 he2 => absurd he2 (List.not_mem_nil e2)⟩
  | cons e es ih =>
    intro D S bb d hD hch
    obtain ⟨h1, h2, h3, h4, h5⟩ := hch
    have hSbound : e.range.stop - bb ≤ S.length := by omega
    have hx1S : e.range.start - bb ≤ S.length := by omega
    have hs' : shiftNat e.range.start d = D.length + (e.range.start - bb) := by
      simp only [shiftNat]; omega
    have hp' : shiftNat e.range.stop d = D.length + (e.range.stop - bb) := by
      simp only [shiftNat]; omega
    have hcond : D.length + (e.range.start - bb) ≤ D.length + (e.range.stop - bb) ∧
        D.length + (e.range.stop - bb) ≤ (D ++ S).length := by
      simp only [List.length_append]
      omega
    have hrm : tryRemove (D ++ S) (D.length + (e.range.start - bb))
        (D.length + (e.range.stop - bb)) =
        some ((D ++ S.take (e.range.start - bb)) ++ S.drop (e.range.stop - bb)) := by
      rw [tryRemove, if_pos hcond, take_append_add, drop_append_add]
    have htakelen : (S.take (e.range.start - bb)).length = e.range.start - bb := by
      rw [List.length_take, Nat.min_eq_left hx1S]
    have hlen1 : (D ++ S.take (e.range.start - bb)).length =
        D.length + (e.range.start - bb) := by
      rw [List.length_append, htakelen]
    have hins : tryInsert ((D ++ S.take (e.range.start - bb)) ++
          S.drop (e.range.stop - bb))
        (D.length + (e.range.start - bb)) e.new =
        some (((D ++ S.take (e.range.start - bb)) ++ e.new) ++
          S.drop (e.range.stop - bb)) := by
      rw [tryInsert, if_pos (by simp only [List.length_append]; omega), ← hlen1,
        List.take_left, List.drop_left]
    have hD' : ((((D ++ S.take (e.range.start - bb)) ++ e.new).length : Int)) =
        ((e.range.stop : Int)) + (d + e.delta) := by
      simp only [List.length_append, htakelen, Edit.delta]
      push_cast
      omega
    have h5' : chainOk e.range.stop
        (e.range.stop + (S.drop (e.range.stop - bb)).length) es := by
      have harith : e.range.stop + (S.drop (e.range.stop - bb)).length =
          bb + S.length := by
        rw [List.length_drop]
        omega
      rw [harith]
      exact h5
    obtain ⟨ihfold, ihbound⟩ := ih ((D ++ S.take (e.range.start - bb)) ++ e.new)
      (S.drop (e.range.stop - bb)) e.range.stop (d + e.delta) hD' h5'
    constructor
    · simp only [offsetEdits, textFoldSeq, textEditStep, Edit.endIdx]
      rw [hs', hp', hrm]
      simp only [Option.some_bind]
      rw [hins]
      simp only [Option.some_bind]
      rw [ihfold]
      simp [applySimFrom, List.append_assoc]
    · intro e2 he2
      simp only [offsetEdits] at he2
      rcases List.mem_cons.mp he2 with he2 | he2
      · subst he2
        dsimp only
        rw [hs']
        have hlenfull : (D ++ applySimFrom bb (e :: es) S).length =
            D.length + (e.range.start - bb) + e.new.length +
              (applySimFrom e.range.stop es (S.drop (e.range.stop - bb))).length := by
          simp only [applySimFrom, List.length_append, htakelen]
          omega
        omega
      · have hb := ihbound e2 he2
        have hleneq : (((D ++ S.take (e.range.start - bb)) ++ e.new) ++
            applySimFrom e.range.stop es (S.drop (e.range.stop - bb))).length =
            (D ++ applySimFrom bb (e :: es) S).length := by
          simp only [applySimFrom, List.length_append]
          omega
        omega

theorem textCharToVscodePosition_some (t : Text) {i : Nat} (h : i ≤ t.length) :
    ∃ p, textCharToVscodePosition t i = some p := by
  simp [textCharToVscodePosition, tryCharToLine, h]

theorem toVscodeDiffEdit_some (t : Text) (e : Edit) (h1 : e.range.start ≤ t.length)
    (h2 : e.range.stop ≤ t.length) :
    ∃ de, toVscodeDiffEdit t e = some de := by
  obtain ⟨p1, hp1⟩ := textCharToVscodePosition_some t h1
  obtain ⟨p2, hp2⟩ := textCharToVscodePosition_some t h2
  exact ⟨⟨p1, p2, e.new⟩, by simp [toVscodeDiffEdit, hp1, hp2]⟩

theorem traverseOption_some {A B : Type} (f : A → Option B) :
    ∀ (xs : List A), (∀ x ∈ xs, ∃ y, f x = some y) →
      ∃ ys, traverseOption f xs = some ys := by
  intro xs
  induction xs with
  | nil => intro _; exact ⟨[], rfl⟩
  | cons x xs ih =>
    intro h
    obtain ⟨y, hy⟩ := h x (List.mem_cons_self x xs)
    obtain ⟨ys, hys⟩ := ih (fun z hz => h z (List.mem_cons_of_mem x hz))
    exact ⟨y :: ys, by simp [traverseOption, hy, hys]⟩

theorem flatten_singletons {α : Type} (xs : List α) :
    (xs.map (fun e => [e])).flatten = xs := by
  induction xs with
  | nil => rfl
  | cons x xs ih => simp [ih]

theorem unnormalizedEdits_singletons (xs : List Edit) :
    (EditTransaction.mk (xs.map (fun e => ActionGroup.mk [e]))).unnormalizedEdits =
      xs := by
  rw [EditTransaction.unnormalizedEdits]
  simp only [List.map_map]
  have hcomp : (ActionGroup.actions ∘ fun e => ActionGroup.mk [e]) =
      fun (e : Edit) => [e] := rfl
  rw [hcomp]
  exact flatten_singletons xs

theorem inverse_unnormalizedEdits (t : EditTransaction) :
    t.inverse.unnormalizedEdits = t.edits.map (fun e =>
      ⟨⟨e.range.start, e.range.start + e.new.length⟩, e.new, e.old⟩) := by
  rw [EditTransaction.inverse]
  have hmm : t.edits.map (fun e => ActionGroup.mk
      [(⟨⟨e.range.start, e.range.start + e.new.length⟩, e.new, e.old⟩ : Edit)]) =
      (t.edits.map (fun e =>
        (⟨⟨e.range.start, e.range.start + e.new.length⟩, e.new, e.old⟩ : Edit))).map
          (fun e => ActionGroup.mk [e]) := by
    rw [List.map_map]
    rfl
  rw [hmm, unnormalizedEdits_singletons]

theorem applyEditTransaction_success (b : Buffer) (t : EditTransaction)
    (sel : SelectionSet) (rp uu : Bool) (lvl : Nat) (ve vi : List DiffEdit)
    (b1 : Buffer)
    (hm1 : traverseOption (toVscodeDiffEdit b.text) t.unnormalizedEdits = some ve)
    (happ : b.applyEditsSeq t.edits lvl = (true, b1))
    (hm2 : traverseOption (toVscodeDiffEdit b1.text) t.inverse.unnormalizedEdits =
      some vi) :
    ∃ b2, b.applyEditTransaction t sel rp uu lvl = (some (sel, ve), b2) ∧
      b2.text = b1.text := by
  simp only [Buffer.applyEditTransaction, hm1, happ, hm2, Buffer.reparseTree]
  cases uu <;> cases rp <;> exact ⟨_, rfl, rfl⟩

theorem getEditTransaction_eq (b : Buffer) (changes : List Change) (F : List Edit)
    (h : diffFold b.text changes ⟨0, [], [], none, 0⟩ = some F) :
    b.getEditTransaction changes = some ⟨F.map (fun e => ⟨[e]⟩)⟩ := by
  simp [Buffer.getEditTransaction, h]

/-! ### Claims -/

/-- C1: for all texts A and B and every valid line diff between them, building the
edit transaction from a buffer holding A towards B (`get_edit_transaction`) and
applying it with `apply_edit_transaction` succeeds and yields a buffer whose
`content()` is exactly B. -/
theorem C1_diff_reconciliation (a bNew : Text) (changes : List Change)
    (hd : DiffOk a bNew changes) (sel : SelectionSet) (rp uu : Bool) (lvl : Nat) :
    ∃ t r b2, (Buffer.new a).getEditTransaction changes = some t ∧
      (Buffer.new a).applyEditTransaction t sel rp uu lvl = (some r, b2) ∧
      b2.content = bNew := by
  obtain ⟨hOld, hNew, hwf⟩ := hd
  obtain ⟨F, hF, hch0, happ0⟩ := diffFold_main a changes 0 none [] 0
    (Nat.zero_le _) (by rw [hOld, List.drop_zero]) hwf (fun _ => rfl)
    (fun s0 hs0 => by cases hs0)
  have hchain : chainOk 0 a.length F := by
    simpa [charsUpTo_zero] using hch0
  have happly : applySimFrom 0 F a = bNew := by
    have h0 := happ0
    simp only [Option.elim, charsUpTo_zero, List.drop_zero, List.nil_append] at h0
    rw [h0, hNew, simLines_flatten]
  have hunnorm : (EditTransaction.mk (F.map (fun e => ⟨[e]⟩))).unnormalizedEdits =
      F := unnormalizedEdits_singletons F
  have hsorted : sortByStart F = F := sortByStart_eq_self (chainOk_chain' hchain)
  have hedits : (EditTransaction.mk (F.map (fun e => ⟨[e]⟩))).edits =
      offsetEdits 0 F := by
    rw [EditTransaction.edits, hunnorm, hsorted]
  have hnorm := textFoldSeq_norm F [] a 0 0 (by simp) (by simpa using hchain)
  have hfold : textFoldSeq (EditTransaction.mk (F.map (fun e => ⟨[e]⟩))).edits
      (Buffer.new a).text = some bNew := by
    rw [hedits]
    have h1 := hnorm.1
    simpa [happly, Buffer.new] using h1
  obtain ⟨hok, htext⟩ := applyEditsSeq_success _ (Buffer.new a) lvl bNew hfold
  rcases happR : (Buffer.new a).applyEditsSeq
    (EditTransaction.mk (F.map (fun e => ⟨[e]⟩))).edits lvl with ⟨ok1, b1⟩
  rw [happR] at hok htext
  have hb1text : b1.text = bNew := htext
  have hmv1 : ∀ e ∈ (EditTransaction.mk (F.map (fun e => ⟨[e]⟩))).unnormalizedEdits,
      ∃ de, toVscodeDiffEdit (Buffer.new a).text e = some de := by
    rw [hunnorm]
    intro e he
    have hb := chainOk_bounds hchain e he
    exact toVscodeDiffEdit_some _ e hb.1 hb.2
  obtain ⟨ve, hve⟩ := traverseOption_some _ _ hmv1
  have hmv2 : ∀ e2 ∈ (EditTransaction.mk (F.map (fun e => ⟨[e]⟩))).inverse.unnormalizedEdits,
      ∃ de, toVscodeDiffEdit b1.text e2 = some de := by
    rw [inverse_unnormalizedEdits]
    intro e2 he2
    obtain ⟨e3, he3, he3eq⟩ := List.mem_map.mp he2
    subst he3eq
    have hb := hnorm.2 e3 (by rw [← hedits]; exact he3)
    have hlen : ([] ++ applySimFrom 0 F a).length = bNew.length := by
      rw [List.nil_append, happly]
    refine toVscodeDiffEdit_some _ _ ?_ ?_
    · dsimp only
      rw [hb1text]
      omega
    · dsimp only
      rw [hb1text]
      omega
  obtain ⟨vi, hvi⟩ := traverseOption_some _ _ hmv2
  cases ok1 with
  | false => cases hok
  | true =>
    obtain ⟨b2, hb2, hb2text⟩ := applyEditTransaction_success (Buffer.new a) _
      sel rp uu lvl ve vi b1 hve happR hvi
    exact ⟨_, (sel, ve), b2, getEditTransaction_eq _ _ F (by simpa [Buffer.new] using hF),
      hb2, by rw [Buffer.content, hb2text, hb1text]⟩

theorem C1_witness :
    DiffOk c1wOld c1wNew c1wChanges ∧
    ∃ t r b2, (Buffer.new c1wOld).getEditTransaction c1wChanges = some t ∧
      (Buffer.new c1wOld).applyEditTransaction t () true true 0 = (some r, b2) ∧
      b2.content = c1wNew :=
  ⟨by decide, C1_diff_reconciliation c1wOld c1wNew c1wChanges (by decide) () true true 0⟩

/-- C2 counterexample: an edit transaction whose second edit fails to apply after the
first edit was already committed — `apply_edit_transaction` returns an error, yet the
buffer's text differs from its text before the call. -/
theorem C2_counterexample :
    (c2wBuffer.applyEditTransaction c2wTransaction () true true 0).1 = none ∧
    (c2wBuffer.applyEditTransaction c2wTransaction () true true 0).2.text ≠
      c2wBuffer.text := by
  decide

/-- C2 (amended): when `apply_edit_transaction` fails before applying any edit — in
particular when the pre-apply external-protocol diff computation fails — the buffer is
returned byte-for-byte unchanged.  (The original all-or-nothing claim fails for
transactions violating the Edit invariants of spec section 3, see the
counterexample.) -/
theorem C2_error_before_apply_unchanged (b : Buffer) (t : EditTransaction)
    (sel : SelectionSet) (rp uu : Bool) (lvl : Nat)
    (h : traverseOption (toVscodeDiffEdit b.text) t.unnormalizedEdits = none) :
    b.applyEditTransaction t sel rp uu lvl = (none, b) := by
  simp only [Buffer.applyEditTransaction]
  rw [h]

theorem C2_witness :
    traverseOption (toVscodeDiffEdit c2wBuffer2.text) c2wTransaction2.unnormalizedEdits = none ∧
    c2wBuffer2.applyEditTransaction c2wTransaction2 () true true 0 = (none, c2wBuffer2) :=
  ⟨by decide, C2_error_before_apply_unchanged _ _ _ _ _ _ (by decide)⟩

/-- C3: after a successful `apply_edit`, the marks and diagnostics are exactly the old
collections remapped through `CharIndexRange::apply_edit`; a range wholly consumed by
the edit is dropped (absent), a range entirely before the edit is unchanged, and a
range after the edited region is shifted by the edit's net length delta. -/
theorem C3_satellite_remap (b : Buffer) (e : Edit) (lvl : Nat)
    (hok : (b.applyEdit e lvl).1 = true) :
    (b.applyEdit e lvl).2.marks = b.marks.filterMap (fun r => r.applyEdit e) ∧
    (b.applyEdit e lvl).2.diagnostics = b.diagnostics.filterMap (fun d =>
      (d.range.applyEdit e).map (fun r => ⟨r⟩)) ∧
    ∀ r : CharIndexRange,
      (e.range.start ≤ r.start → r.stop ≤ e.range.stop → e.range.start < r.stop →
        r.applyEdit e = none) ∧
      (r.stop ≤ e.range.start → r.applyEdit e = some r) ∧
      (e.range.start ≤ e.range.stop → e.range.stop ≤ r.start → r.start < r.stop →
        r.applyEdit e = some ⟨shiftNat r.start e.delta, shiftNat r.stop e.delta⟩) := by
  have hd := applyEdit_dissect b e lvl
  rw [hd.1] at hok
  rcases hT : textEditStep b.text e with _ | T
  · rw [hT] at hok; simp at hok
  · have hm := hd.2.2.2.2 T hT
    refine ⟨hm.2.1, hm.2.2, ?_⟩
    intro r
    refine ⟨?_, ?_, ?_⟩
    · intro h1 h2 h3
      have hn1 : ¬ (r.stop ≤ e.range.start) := by omega
      simp [CharIndexRange.applyEdit, hn1, h1, h2]
    · intro h1
      simp [CharIndexRange.applyEdit, h1]
    · intro h0 h1 h2
      have hn1 : ¬ (r.stop ≤ e.range.start) := by omega
      have hn2 : ¬ (e.range.start ≤ r.start ∧ r.stop ≤ e.range.stop) := by omega
      simp [CharIndexRange.applyEdit, hn1, hn2]

theorem C3_witness :
    (c3wBuffer.applyEdit c3wEdit 0).1 = true ∧
    (c3wBuffer.applyEdit c3wEdit 0).2.marks =
      c3wBuffer.marks.filterMap (fun r => r.applyEdit c3wEdit) ∧
    CharIndexRange.applyEdit ⟨2, 4⟩ c3wEdit = none ∧
    CharIndexRange.applyEdit ⟨0, 1⟩ c3wEdit = some ⟨0, 1⟩ ∧
    CharIndexRange.applyEdit ⟨5, 6⟩ c3wEdit =
      some ⟨shiftNat 5 c3wEdit.delta, shiftNat 6 c3wEdit.delta⟩ := by
  have h := C3_satellite_remap c3wBuffer c3wEdit 0 (by decide)
  exact ⟨by decide, h.1, (h.2.2 ⟨2, 4⟩).1 (by decide) (by decide) (by decide),
    (h.2.2 ⟨0, 1⟩).2.1 (by decide),
    (h.2.2 ⟨5, 6⟩).2.2 (by decide) (by decide) (by decide)⟩

/-- C4: a highlight result with a batch id different from the buffer's current batch
id leaves `highlighted_spans()` unchanged; a matching batch id stores the result; and
every successful `apply_edit_transaction` increments the batch id by one. -/
theorem C4_batch_gating (b : Buffer) (batch : Nat) (spans : List HighlightedSpan)
    (t : EditTransaction) (sel : SelectionSet) (rp uu : Bool) (lvl : Nat) :
    (batch ≠ b.batchId →
      (b.updateHighlightedSpans batch spans).highlightedSpans = b.highlightedSpans) ∧
    (batch = b.batchId →
      (b.updateHighlightedSpans batch spans).highlightedSpans = spans) ∧
    ((b.applyEditTransaction t sel rp uu lvl).1.isSome = true →
      (b.applyEditTransaction t sel rp uu lvl).2.batchId = b.batchId + 1) := by
  refine ⟨?_, ?_, ?_⟩
  · intro h; simp [Buffer.updateHighlightedSpans, h]
  · intro h; simp [Buffer.updateHighlightedSpans, h]
  · exact applyEditTransaction_batchId b t sel rp uu lvl

theorem C4_witness :
    ((c4wBuffer.updateHighlightedSpans 1 [c4wSpan]).highlightedSpans =
      c4wBuffer.highlightedSpans) ∧
    ((c4wBuffer.updateHighlightedSpans 0 [c4wSpan]).highlightedSpans = [c4wSpan]) ∧
    ((c4wBuffer.applyEditTransaction c4wTransaction () true true 0).2.batchId =
      c4wBuffer.batchId + 1) := by
  have h := C4_batch_gating c4wBuffer 1 [c4wSpan] c4wTransaction () true true 0
  have h0 := C4_batch_gating c4wBuffer 0 [c4wSpan] c4wTransaction () true true 0
  exact ⟨h.1 (by decide), h0.2.1 (by decide), h.2.2 (by decide)⟩

/-- C5 (code bug evaluation): on the text "a\nb", char index 1 sits on the trailing
newline of line 0 (the engine's own position for it is (0,1)), and
`char_to_vscode_position` returns protocol position (0,1) as well — not the (1,0)
that its own documentation and the spec promise. -/
theorem C5_vscode_newline_evaluation :
    (Buffer.new ("a\nb".toList)).charToPosition 1 = some ⟨0, 1⟩ ∧
    (Buffer.new ("a\nb".toList)).charToVscodePosition 1 = some ⟨0, 1⟩ ∧
    (Buffer.new ("a\nb".toList)).charToVscodePosition 1 ≠ some ⟨1, 0⟩ := by
  decide

/-- Supporting fact for C5: `char_to_vscode_position` computes exactly
`char_to_position` (cast to u32 protocol coordinates) for every buffer and index —
the documented off-by-one adjustment is absent from the code. -/
theorem charToVscodePosition_eq_charToPosition (b : Buffer) (i : Nat) :
    b.charToVscodePosition i =
      (b.charToPosition i).map (fun p => ⟨u32 p.line, u32 p.column⟩) := by
  cases h : tryCharToLine b.text i <;>
    simp [Buffer.charToVscodePosition, Buffer.charToPosition, textCharToVscodePosition,
      textCharToPosition, h]

/-- C6: undo (resp. redo) on an empty undo (resp. redo) stack returns Ok with a
"nothing to do" result and leaves the buffer unchanged. -/
theorem C6_undo_redo_empty_stack (b : Buffer) (lvl : Nat) :
    (b.undoStack = [] → b.undo lvl = (some none, b)) ∧
    (b.redoStack = [] → b.redo lvl = (some none, b)) := by
  constructor <;> intro h
  · simp [Buffer.undo, h]
  · simp [Buffer.redo, h]

theorem C6_witness :
    c6wBuffer.undo 0 = (some none, c6wBuffer) ∧
    c6wBuffer.redo 0 = (some none, c6wBuffer) :=
  ⟨(C6_undo_redo_empty_stack c6wBuffer 0).1 rfl, (C6_undo_redo_empty_stack c6wBuffer 0).2 rfl⟩

/-- C7: `position_to_char` never fails, for every buffer and every position whatsoever,
and the resulting char index is at most `len_chars`. -/
theorem C7_position_to_char_total (b : Buffer) (p : Position) :
    ∃ i, b.positionToChar p = some i ∧ i ≤ b.lenChars :=
  textPositionToChar_total b.text p

/-- C8: appending a single trailing newline to a text not ending in a newline does not
change `len_lines()`. -/
theorem C8_len_lines_trailing_newline (s : Text) (h : endsNlB s = false) :
    (Buffer.new (s ++ ['\n'])).lenLines = (Buffer.new s).lenLines := by
  have h1 : endsNlB (s ++ ['\n']) = true := by
    simp [endsNlB]
  have h2 : countNl (s ++ ['\n']) = countNl s + 1 := by
    simp [countNl, List.countP_append, List.countP_cons]
  simp [Buffer.lenLines, Buffer.new, lenLinesT, ropeLenLines_eq, h1, h, h2]

theorem C8_witness :
    endsNlB ("ab".toList) = false ∧
    (Buffer.new ("ab".toList ++ ['\n'])).lenLines = (Buffer.new ("ab".toList)).lenLines :=
  ⟨by decide, C8_len_lines_trailing_newline _ (by decide)⟩

theorem saveMarks_mem (b : Buffer) (rs : List CharIndexRange) (m : CharIndexRange) :
    m ∈ (b.saveMarks rs).marks ↔
      ((m ∈ rs ∧ m ∉ b.marks) ∨ (m ∈ b.marks ∧ m ∉ rs)) := by
  simp [Buffer.saveMarks, List.mem_append, List.mem_filter, List.mem_dedup,
    decide_eq_true_eq]

/-- C9: `save_marks` sets the marks to the symmetric difference (as sets) of the
previous marks and the given ranges, so marking an already-marked range removes it and
calling `save_marks` twice with the same ranges restores the original set of marks. -/
theorem C9_save_marks_symmetric_difference (b : Buffer) (rs : List CharIndexRange)
    (m : CharIndexRange) :
    (m ∈ (b.saveMarks rs).marks ↔ ((m ∈ rs ∧ m ∉ b.marks) ∨ (m ∈ b.marks ∧ m ∉ rs))) ∧
    (m ∈ ((b.saveMarks rs).saveMarks rs).marks ↔ m ∈ b.marks) := by
  refine ⟨saveMarks_mem b rs m, ?_⟩
  rw [saveMarks_mem, saveMarks_mem]
  tauto

/-- C10: undo and redo never change the batch id (whatever their outcome), so a
highlight result tagged with the batch id the buffer had before the undo/redo is still
accepted by `update_highlighted_spans` afterwards. -/
theorem C10_undo_redo_preserve_batch_id (b : Buffer) (lvl : Nat)
    (spans : List HighlightedSpan) :
    ((b.undo lvl).2.batchId = b.batchId) ∧
    ((b.redo lvl).2.batchId = b.batchId) ∧
    (((b.undo lvl).2.updateHighlightedSpans b.batchId spans).highlightedSpans = spans) ∧
    (((b.redo lvl).2.updateHighlightedSpans b.batchId spans).highlightedSpans = spans) := by
  refine ⟨undo_batchId b lvl, redo_batchId b lvl, ?_, ?_⟩
  · simp [Buffer.updateHighlightedSpans, undo_batchId b lvl]
  · simp [Buffer.updateHighlightedSpans, redo_batchId b lvl]

end KiEditor
